import Mathlib

/-
Verification of the password generator (src/password_generator.py).

The program is shallowly embedded: every Python function that the claims
touch is translated to an executable Lean definition over `List Char`
(Python strings) and `List (List Char)` (lists of strings).  Randomness
(`random.sample`, `random.choice`, `secrets.choice`) is modelled by
explicit oracles: functions `Nat → Nat` supplying one arbitrary natural
number per drawing step; the drawn element is the oracle value reduced
modulo the number of available candidates, so every run of the Python
program corresponds to some oracle and vice versa.  File-system state
(the two append-only log files) is modelled by an explicit `LogState`
record threaded through the logged wrappers.
-/

set_option maxRecDepth 8000

namespace PwGen

/-- The 26 lowercase ASCII letters, the embedding of `string.ascii_lowercase`. -/
def ascii_lowercase : List Char := "abcdefghijklmnopqrstuvwxyz".toList

/-- The 26 uppercase ASCII letters, the embedding of `string.ascii_uppercase`. -/
def ascii_uppercase : List Char := "ABCDEFGHIJKLMNOPQRSTUVWXYZ".toList

/-- The 10 decimal digits, the embedding of `string.digits`. -/
def digits : List Char := "0123456789".toList

/-- Codes of Python `string.punctuation`: the printable non-alphanumeric,
non-space ASCII characters (codes 33-47, 58-64, 91-96, 123-126). -/
def isPunctCode (n : Nat) : Bool :=
  (33 ≤ n && n ≤ 47) || (58 ≤ n && n ≤ 64) || (91 ≤ n && n ≤ 96) || (123 ≤ n && n ≤ 126)

/-- The 32 characters of `string.punctuation`. -/
def punctChars : List Char := ((List.range 128).filter isPunctCode).map Char.ofNat

/-- Python truthiness of the `forbidden` argument (`None` and empty
collections are falsy), as used by `if forbidden:` at line 92. -/
def truthy : Option (List Char) → Bool
  | none => false
  | some l => !l.isEmpty

/-- The list of forbidden characters carried by the optional argument. -/
def forbList (f : Option (List Char)) : List Char := f.getD []

/-- Lowercase ∪ uppercase ∪ digits, the base character set of line 89. -/
def baseChars : List Char := ascii_lowercase ++ ascii_uppercase ++ digits

/-- The base set, plus punctuation when requested (lines 90-91). -/
def withPunctChars (include_punct : Bool) : List Char :=
  if include_punct then baseChars ++ punctChars else baseChars

/-- The member set of the alphabet: punctuation added when requested,
forbidden characters removed when the argument is truthy (lines 89-93). -/
def preAlphabet (include_punct : Bool) (forbidden : Option (List Char)) : List Char :=
  if truthy forbidden then
    (withPunctChars include_punct).filter (fun c => !decide (c ∈ forbList forbidden))
  else withPunctChars include_punct

/-- The alphabet construction of `generate_random` (lines 89-98):
lowercase ∪ uppercase ∪ digits, plus punctuation when requested, minus
the forbidden characters when the argument is truthy, then deduplicated
and sorted (`"".join(sorted(alphabet))`). -/
def buildAlphabet (include_punct : Bool) (forbidden : Option (List Char)) : List Char :=
  List.insertionSort (fun a b => a ≤ b) (preAlphabet include_punct forbidden).dedup

/-- The embedding of `generate_random` (lines 81-101) without the logging
side effect (see `generate_random_logged`).  `pick i` is the oracle for
the `i`-th call of `secrets.choice(alphabet)`. -/
def generate_random (length : Int) (include_punct : Bool) (forbidden : Option (List Char))
    (pick : Nat → Nat) : Except String (List Char) :=
  if length ≤ 0 then .error "length must be >= 1."
  else
    let alphabet := buildAlphabet include_punct forbidden
    if alphabet.isEmpty then .error "No characters available to generate password."
    else .ok ((List.range length.toNat).map (fun i => alphabet.getD (pick i % alphabet.length) ' '))

/-- The password carried by a successful result (and `[]` on failure). -/
def pwdOf (r : Except String (List Char)) : List Char :=
  match r with
  | .ok s => s
  | .error _ => []

/-- Whether a result is a success. -/
def isOk (r : Except String (List Char)) : Bool :=
  match r with
  | .ok _ => true
  | .error _ => false

/-- A password character is legitimate for flags `p`, `f`: it belongs to
lowercase ∪ uppercase ∪ digits (∪ punctuation when `p`) and is not
forbidden. -/
def charOk (p : Bool) (f : Option (List Char)) (c : Char) : Bool :=
  (decide (c ∈ ascii_lowercase) || decide (c ∈ ascii_uppercase) || decide (c ∈ digits) ||
    (p && decide (c ∈ punctChars))) && !decide (c ∈ forbList f)

/-- A character list is strictly increasing: sorted with no duplicates. -/
def sortedNodup (l : List Char) : Bool :=
  decide (List.Pairwise (fun a b => a < b) l)

/-- No character of `F` occurs in `s`. -/
def noForbidden (F s : List Char) : Bool := s.all (fun c => !decide (c ∈ F))

/-- A constant oracle, used to instantiate theorems at concrete runs. -/
def zeroPick : Nat → Nat := fun _ => 0

-- ### Helper lemmas about the alphabet

theorem mem_buildAlphabet (p : Bool) (f : Option (List Char)) (c : Char) :
    c ∈ buildAlphabet p f ↔ c ∈ preAlphabet p f := by
  unfold buildAlphabet
  rw [(List.perm_insertionSort _ _).mem_iff, List.mem_dedup]

theorem mem_withPunctChars_of_mem_preAlphabet (p : Bool) (f : Option (List Char)) (c : Char)
    (h : c ∈ preAlphabet p f) : c ∈ withPunctChars p := by
  unfold preAlphabet at h
  by_cases hf : truthy f
  · rw [if_pos hf] at h
    exact (List.mem_filter.mp h).1
  · rwa [if_neg hf] at h

theorem not_mem_forbList_of_mem_preAlphabet (p : Bool) (f : Option (List Char)) (c : Char)
    (h : c ∈ preAlphabet p f) : c ∉ forbList f := by
  unfold preAlphabet at h
  cases f with
  | none =>
    intro hc
    simp [forbList] at hc
  | some l =>
    cases l with
    | nil =>
      intro hc
      simp [forbList] at hc
    | cons a t =>
      have hf : truthy (some (a :: t)) = true := by
        simp [truthy, List.isEmpty]
      rw [if_pos hf] at h
      have := (List.mem_filter.mp h).2
      simpa using this

theorem not_mem_forbList_of_mem_buildAlphabet (p : Bool) (f : Option (List Char)) (c : Char)
    (h : c ∈ buildAlphabet p f) : c ∉ forbList f :=
  not_mem_forbList_of_mem_preAlphabet p f c ((mem_buildAlphabet p f c).mp h)

theorem charOk_of_mem_buildAlphabet (p : Bool) (f : Option (List Char)) (c : Char)
    (h : c ∈ buildAlphabet p f) : charOk p f c = true := by
  have h2 := not_mem_forbList_of_mem_buildAlphabet p f c h
  have h1 := mem_withPunctChars_of_mem_preAlphabet p f c ((mem_buildAlphabet p f c).mp h)
  unfold charOk
  cases p with
  | false =>
    unfold withPunctChars baseChars at h1
    rw [if_neg (by simp)] at h1
    rcases List.mem_append.mp h1 with h3 | h3
    · rcases List.mem_append.mp h3 with h4 | h4 <;> simp [h4, h2]
    · simp [h3, h2]
  | true =>
    unfold withPunctChars baseChars at h1
    rw [if_pos rfl] at h1
    rcases List.mem_append.mp h1 with h3 | h3
    · rcases List.mem_append.mp h3 with h4 | h4
      · rcases List.mem_append.mp h4 with h5 | h5 <;> simp [h5, h2]
      · simp [h4, h2]
    · simp [h3, h2]

theorem sortedNodup_buildAlphabet (p : Bool) (f : Option (List Char)) :
    sortedNodup (buildAlphabet p f) = true := by
  unfold sortedNodup
  apply decide_eq_true
  have hs : List.Sorted (fun a b : Char => a ≤ b) (buildAlphabet p f) := by
    unfold buildAlphabet
    exact List.sorted_insertionSort _ _
  have hn : (buildAlphabet p f).Nodup := by
    unfold buildAlphabet
    exact (List.perm_insertionSort _ _).symm.nodup (List.nodup_dedup _)
  exact List.Sorted.lt_of_le hs hn

theorem mem_of_mem_generate_random (L : Int) (p : Bool) (f : Option (List Char))
    (pick : Nat → Nat) (c : Char) (h : c ∈ pwdOf (generate_random L p f pick)) :
    c ∈ buildAlphabet p f := by
  unfold generate_random at h
  by_cases hL : L ≤ 0
  · simp [hL, pwdOf] at h
  · simp only [hL, if_false] at h
    by_cases he : (buildAlphabet p f).isEmpty
    · simp [he, pwdOf] at h
    · simp only [he, Bool.false_eq_true, if_false, pwdOf, List.mem_map] at h
      rcases h with ⟨i, -, rfl⟩
      have hpos : 0 < (buildAlphabet p f).length := by
        cases hb : buildAlphabet p f with
        | nil => rw [hb] at he; simp [List.isEmpty] at he
        | cons a t => simp [hb]
      have hlt : pick i % (buildAlphabet p f).length < (buildAlphabet p f).length :=
        Nat.mod_lt _ hpos
      rw [List.getD_eq_getElem _ _ hlt]
      exact List.getElem_mem hlt

-- ### Claim C4: success/failure condition of generate_random

theorem isOk_generate_random (L : Int) (p : Bool) (f : Option (List Char))
    (pick : Nat → Nat) :
    isOk (generate_random L p f pick) = true ↔ (1 ≤ L ∧ buildAlphabet p f ≠ []) := by
  unfold generate_random
  by_cases hL : L ≤ 0
  · simp only [hL, if_true, isOk]
    constructor
    · intro h; cases h
    · rintro ⟨h1, -⟩; omega
  · simp only [hL, if_false]
    by_cases he : (buildAlphabet p f).isEmpty
    · simp only [he, if_true, isOk]
      constructor
      · intro h; cases h
      · rintro ⟨-, h2⟩; exact absurd (List.isEmpty_iff.mp he) h2
    · simp only [he, Bool.false_eq_true, if_false, isOk, true_iff]
      refine ⟨by omega, fun hnil => he ?_⟩
      rw [hnil]; rfl

/-- C4: `generate_random` fails exactly when the requested length is not
positive or the resulting alphabet (after optionally adding punctuation
and removing forbidden characters) is empty; otherwise it succeeds. -/
theorem generate_random_isOk_iff (L : Int) (p : Bool) (f : Option (List Char))
    (pick : Nat → Nat) :
    isOk (generate_random L p f pick) = true ↔ (1 ≤ L ∧ buildAlphabet p f ≠ []) :=
  isOk_generate_random L p f pick

-- ### Claim C9: empty forbidden collection behaves like None

/-- C9: an empty forbidden collection is falsy in Python, so
`generate_random` builds exactly the same alphabet — and behaves
identically — whether `forbidden` is an empty collection or `None`. -/
theorem generate_random_empty_forbidden_eq_none (L : Int) (p : Bool) (pick : Nat → Nat) :
    buildAlphabet p (some []) = buildAlphabet p none ∧
    generate_random L p (some []) pick = generate_random L p none pick := by
  have halpha : buildAlphabet p (some []) = buildAlphabet p none := rfl
  refine ⟨halpha, ?_⟩
  unfold generate_random
  rw [halpha]

-- ### Claim C7: forbidden characters never appear in the output

/-- C7: for every forbidden set `F`, no character of `F` occurs in a
password produced by `generate_random` called with `forbidden = F`
(vacuously including the failing runs, which produce no password). -/
theorem generate_random_avoids_forbidden (L : Int) (p : Bool) (F : List Char)
    (pick : Nat → Nat) :
    noForbidden F (pwdOf (generate_random L p (some F) pick)) = true := by
  unfold noForbidden
  rw [List.all_eq_true]
  intro c hc
  have hmem := mem_of_mem_generate_random L p (some F) pick c hc
  have hnf := not_mem_forbList_of_mem_buildAlphabet p (some F) c hmem
  simpa [forbList] using hnf

-- ### Claim C1: length and alphabet of random passwords

/-- All 128 ASCII characters; forbidding them all empties the alphabet. -/
def allAsciiChars : List Char := (List.range 128).map Char.ofNat

/-- C1 counterexample: with every ASCII character forbidden, the alphabet
is empty and `generate_random` raises instead of returning a password of
the requested length, so the claim does not hold for every forbidden
set. -/
theorem generate_random_all_forbidden_fails :
    isOk (generate_random 1 true (some allAsciiChars) zeroPick) = false := by decide

/-- C1 (amended): for every length L ≥ 1 and every forbidden set that
leaves the alphabet non-empty, `generate_random` succeeds with a password
of exactly L characters, each drawn from lowercase ∪ uppercase ∪ digits
(∪ punctuation when requested) minus the forbidden characters, the
alphabet being deduplicated and sorted before sampling. -/
theorem generate_random_length_and_alphabet (L : Int) (p : Bool) (f : Option (List Char))
    (pick : Nat → Nat) (hL : 1 ≤ L) (hA : buildAlphabet p f ≠ []) :
    isOk (generate_random L p f pick) = true ∧
    (pwdOf (generate_random L p f pick)).length = L.toNat ∧
    (pwdOf (generate_random L p f pick)).all (charOk p f) = true ∧
    sortedNodup (buildAlphabet p f) = true := by
  refine ⟨(isOk_generate_random L p f pick).mpr ⟨hL, hA⟩, ?_, ?_, sortedNodup_buildAlphabet p f⟩
  · unfold generate_random
    rw [if_neg (by omega)]
    rw [if_neg (by simpa [List.isEmpty_iff] using hA)]
    simp [pwdOf]
  · rw [List.all_eq_true]
    intro c hc
    exact charOk_of_mem_buildAlphabet p f c (mem_of_mem_generate_random L p f pick c hc)

/-- C1 witness: a concrete successful run of the amended theorem. -/
theorem generate_random_length_and_alphabet_witness :
    isOk (generate_random 3 false none zeroPick) = true ∧
    (pwdOf (generate_random 3 false none zeroPick)).length = (3 : Int).toNat ∧
    (pwdOf (generate_random 3 false none zeroPick)).all (charOk false none) = true ∧
    sortedNodup (buildAlphabet false none) = true :=
  generate_random_length_and_alphabet 3 false none zeroPick (by decide) (by decide)

-- ### Memorable passwords: embedding of generate_memorable (lines 43-78)

/-- The three random sources used by `generate_memorable`:
`samplePick i` drives the `i`-th removal step of `random.sample`,
`casePick i` the `random.choice` for the `i`-th word in mixed mode, and
`digitPick i` the `secrets.choice(string.digits)` for the `i`-th word. -/
structure MemOracle where
  samplePick : Nat → Nat
  casePick : Nat → Nat
  digitPick : Nat → Nat

/-- One oracle-driven run of `random.sample(pool, k)` (line 56): at each
step an element at a freely chosen position is removed from the remaining
pool, so positions never repeat. -/
def sampleGo : Nat → List (List Char) → (Nat → Nat) → Nat → List (List Char)
  | 0, _, _, _ => []
  | k + 1, pool, pick, i =>
    pool.getD (pick i % pool.length) [] ::
      sampleGo k (pool.eraseIdx (pick i % pool.length)) pick (i + 1)

/-- Runs `random.sample(pool, k)` with the oracle started at step 0. -/
def sample (pool : List (List Char)) (k : Nat) (pick : Nat → Nat) : List (List Char) :=
  sampleGo k pool pick 0

/-- Embeds `w.lower()` on the ASCII model. -/
def lowerStr (w : List Char) : List Char := w.map Char.toLower

/-- Embeds `w.upper()` on the ASCII model. -/
def upperStr (w : List Char) : List Char := w.map Char.toUpper

/-- Embeds `w.title()`: uppercase each letter that starts an alphabetic
run, lowercase the other letters. -/
def titleGo : Bool → List Char → List Char
  | _, [] => []
  | atStart, c :: rest =>
    if c.isAlpha then (if atStart then c.toUpper else c.toLower) :: titleGo false rest
    else c :: titleGo true rest

/-- Embeds `w.title()`; a run starts at the beginning of the string. -/
def titleStr (w : List Char) : List Char := titleGo true w

/-- The recognised case modes of `apply_case` (lines 58-67). -/
def validCase (caseMode : String) : Bool :=
  caseMode == "lower" || caseMode == "upper" || caseMode == "title" || caseMode == "mixed"

/-- The embedding of `apply_case` (lines 58-67); `k` drives the
`random.choice` of mixed mode, which picks one of the three styles. -/
def apply_case (caseMode : String) (k : Nat) (w : List Char) : Except String (List Char) :=
  if caseMode = "lower" then .ok (lowerStr w)
  else if caseMode = "upper" then .ok (upperStr w)
  else if caseMode = "title" then .ok (titleStr w)
  else if caseMode = "mixed" then .ok ([lowerStr w, upperStr w, titleStr w].getD (k % 3) (lowerStr w))
  else .error "case must be lower, upper, title, or mixed"

/-- The value `apply_case` returns on a valid case mode. -/
def apply_case_fn (caseMode : String) (k : Nat) (w : List Char) : List Char :=
  if caseMode = "lower" then lowerStr w
  else if caseMode = "upper" then upperStr w
  else if caseMode = "title" then titleStr w
  else [lowerStr w, upperStr w, titleStr w].getD (k % 3) (lowerStr w)

/-- Embeds `secrets.choice(string.digits)`, driven by an oracle value (line 73). -/
def digitChar (n : Nat) : Char := digits.getD (n % 10) '0'

/-- The word the loop of lines 70-74 produces for the `i`-th sampled word
on a valid case mode: the cased word, with one digit appended when digit
suffixing is on. -/
def procWord (caseMode : String) (add_digit : Bool) (o : MemOracle) (i : Nat)
    (w : List Char) : List Char :=
  if add_digit then apply_case_fn caseMode (o.casePick i) w ++ [digitChar (o.digitPick i)]
  else apply_case_fn caseMode (o.casePick i) w

/-- The processed list the loop of lines 69-74 produces on a valid case
mode, starting at word index `i`. -/
def procList (caseMode : String) (add_digit : Bool) (o : MemOracle) :
    Nat → List (List Char) → List (List Char)
  | _, [] => []
  | i, w :: rest => procWord caseMode add_digit o i w :: procList caseMode add_digit o (i + 1) rest

/-- The loop of lines 69-74 with its possible `apply_case` failure. -/
def processWords (caseMode : String) (add_digit : Bool) (o : MemOracle) :
    Nat → List (List Char) → Except String (List (List Char))
  | _, [] => .ok []
  | i, w :: rest =>
    match apply_case caseMode (o.casePick i) w with
    | .error e => .error e
    | .ok w2 =>
      match processWords caseMode add_digit o (i + 1) rest with
      | .error e => .error e
      | .ok ps => .ok ((if add_digit then w2 ++ [digitChar (o.digitPick i)] else w2) :: ps)

/-- Embeds `"-".join(processed)` (line 76). -/
def joinHyphen : List (List Char) → List Char
  | [] => []
  | [p] => p
  | p :: ps => p ++ '-' :: joinHyphen ps

/-- The embedding of `generate_memorable` (lines 43-78) without the
logging side effect (see `generate_memorable_logged`).  The noun pool is
explicit, standing for the `nouns_pool` argument (or the loaded noun
file when the argument is `None`). -/
def generate_memorable (n_words : Int) (caseMode : String) (add_digit_each : Bool)
    (nouns_pool : List (List Char)) (o : MemOracle) : Except String (List Char) :=
  if n_words ≤ 0 then .error "n_words must be >= 1."
  else if (nouns_pool.length : Int) < n_words then .error "n_words is larger than the nouns list."
  else
    match processWords caseMode add_digit_each o 0 (sample nouns_pool n_words.toNat o.samplePick) with
    | .error e => .error e
    | .ok processed => .ok (joinHyphen processed)

/-- A constant memorable-password oracle for concrete runs. -/
def zeroOracle : MemOracle := ⟨fun _ => 0, fun _ => 0, fun _ => 0⟩

-- ### Helper lemmas about sampling

theorem sampleGo_length (k : Nat) : ∀ (pool : List (List Char)) (pick : Nat → Nat) (i : Nat),
    k ≤ pool.length → (sampleGo k pool pick i).length = k := by
  induction k with
  | zero => intro pool pick i _; rfl
  | succ k ih =>
    intro pool pick i h
    have hpos : 0 < pool.length := by omega
    have hj : pick i % pool.length < pool.length := Nat.mod_lt _ hpos
    unfold sampleGo
    simp only [List.length_cons]
    rw [ih _ pick (i + 1) (by rw [List.length_eraseIdx, if_pos hj]; omega)]

theorem perm_getD_cons_eraseIdx : ∀ (l : List (List Char)) (j : Nat), j < l.length →
    List.Perm l (l.getD j [] :: l.eraseIdx j) := by
  intro l
  induction l with
  | nil => intro j h; simp at h
  | cons a t ih =>
    intro j h
    cases j with
    | zero => simp [List.getD]
    | succ j =>
      have hj : j < t.length := by simpa using h
      have step := (ih j hj).cons a
      have hsw := List.Perm.swap (t.getD j []) a (t.eraseIdx j)
      exact step.trans hsw

theorem sampleGo_subperm (k : Nat) : ∀ (pool : List (List Char)) (pick : Nat → Nat) (i : Nat),
    k ≤ pool.length → List.Subperm (sampleGo k pool pick i) pool := by
  induction k with
  | zero => intro pool pick i _; exact List.nil_subperm
  | succ k ih =>
    intro pool pick i h
    have hpos : 0 < pool.length := by omega
    have hj : pick i % pool.length < pool.length := Nat.mod_lt _ hpos
    have hperm := perm_getD_cons_eraseIdx pool _ hj
    have htail := ih (pool.eraseIdx (pick i % pool.length)) pick (i + 1)
      (by rw [List.length_eraseIdx, if_pos hj]; omega)
    unfold sampleGo
    exact ((List.subperm_cons _).mpr htail).trans hperm.symm.subperm

-- ### Helper lemmas about case application and the processing loop

theorem validCase_cases (cm : String) (h : validCase cm = true) :
    cm = "lower" ∨ cm = "upper" ∨ cm = "title" ∨ cm = "mixed" := by
  simp only [validCase, Bool.or_eq_true, beq_iff_eq, or_assoc] at h
  exact h

theorem apply_case_ok (cm : String) (k : Nat) (w : List Char) (h : validCase cm = true) :
    apply_case cm k w = .ok (apply_case_fn cm k w) := by
  rcases validCase_cases cm h with h1 | h1 | h1 | h1 <;> subst h1 <;> rfl

theorem apply_case_invalid (cm : String) (k : Nat) (w : List Char) (h : validCase cm = false) :
    apply_case cm k w = .error "case must be lower, upper, title, or mixed" := by
  simp only [validCase, Bool.or_eq_false_iff, beq_eq_false_iff_ne, ne_eq] at h
  rcases h with ⟨⟨⟨h1, h2⟩, h3⟩, h4⟩
  unfold apply_case
  rw [if_neg h1, if_neg h2, if_neg h3, if_neg h4]

theorem processWords_eq_procList (cm : String) (d : Bool) (o : MemOracle)
    (h : validCase cm = true) :
    ∀ (i : Nat) (ws : List (List Char)),
      processWords cm d o i ws = .ok (procList cm d o i ws) := by
  intro i ws
  induction ws generalizing i with
  | nil => rfl
  | cons w rest ih =>
    unfold processWords procList
    rw [apply_case_ok cm _ w h, ih (i + 1)]
    unfold procWord
    cases d <;> rfl

theorem processWords_invalid (cm : String) (d : Bool) (o : MemOracle) (i : Nat)
    (w : List Char) (rest : List (List Char)) (h : validCase cm = false) :
    processWords cm d o i (w :: rest) = .error "case must be lower, upper, title, or mixed" := by
  unfold processWords
  rw [apply_case_invalid cm _ w h]

theorem procList_length (cm : String) (d : Bool) (o : MemOracle) :
    ∀ (i : Nat) (ws : List (List Char)), (procList cm d o i ws).length = ws.length := by
  intro i ws
  induction ws generalizing i with
  | nil => rfl
  | cons w rest ih =>
    unfold procList
    simp only [List.length_cons, ih (i + 1)]

theorem forall₂_procList (cm : String) (d : Bool) (o : MemOracle)
    (R : List Char → List Char → Prop)
    (h : ∀ (j : Nat) (w : List Char), R w (procWord cm d o j w)) :
    ∀ (i : Nat) (ws : List (List Char)), List.Forall₂ R ws (procList cm d o i ws) := by
  intro i ws
  induction ws generalizing i with
  | nil => exact List.Forall₂.nil
  | cons w rest ih => exact List.Forall₂.cons (h i w) (ih (i + 1))

theorem sample_length (pool : List (List Char)) (k : Nat) (pick : Nat → Nat)
    (h : k ≤ pool.length) : (sample pool k pick).length = k :=
  sampleGo_length k pool pick 0 h

theorem sample_subperm (pool : List (List Char)) (k : Nat) (pick : Nat → Nat)
    (h : k ≤ pool.length) : List.Subperm (sample pool k pick) pool :=
  sampleGo_subperm k pool pick 0 h

theorem generate_memorable_ok (N : Int) (cm : String) (d : Bool) (pool : List (List Char))
    (o : MemOracle) (h1 : 1 ≤ N) (h2 : N ≤ (pool.length : Int)) (hc : validCase cm = true) :
    generate_memorable N cm d pool o =
      .ok (joinHyphen (procList cm d o 0 (sample pool N.toNat o.samplePick))) := by
  unfold generate_memorable
  rw [if_neg (by omega), if_neg (by omega)]
  rw [processWords_eq_procList cm d o hc]

-- ### Claim C3: success/failure condition of generate_memorable

/-- A pool containing the same word twice; its distinct size is 1. -/
def catcatPool : List (List Char) := ["cat".toList, "cat".toList]

/-- C3 counterexample: the code only compares `n_words` against the raw
pool length, so with the word "cat" listed twice a request for 2 words
succeeds even though it exceeds the distinct pool size 1, where the
claim requires failure. -/
theorem generate_memorable_duplicate_pool_succeeds :
    isOk (generate_memorable 2 "lower" false catcatPool zeroOracle) = true ∧
    (catcatPool.dedup.length : Int) < 2 := ⟨rfl, by decide⟩

/-- C3 (amended): `generate_memorable` fails exactly when N ≤ 0, or when
N exceeds the raw pool length (duplicates counted), or when the case
mode is not one of the four recognized values; otherwise it succeeds. -/
theorem generate_memorable_isOk_iff (N : Int) (cm : String) (d : Bool)
    (pool : List (List Char)) (o : MemOracle) :
    isOk (generate_memorable N cm d pool o) = true ↔
      (1 ≤ N ∧ N ≤ (pool.length : Int) ∧ validCase cm = true) := by
  by_cases h1 : N ≤ 0
  · unfold generate_memorable
    rw [if_pos h1]
    constructor
    · intro h; simp [isOk] at h
    · rintro ⟨ha, -, -⟩; omega
  · by_cases h2 : (pool.length : Int) < N
    · unfold generate_memorable
      rw [if_neg h1, if_pos h2]
      constructor
      · intro h; simp [isOk] at h
      · rintro ⟨-, hb, -⟩; omega
    · by_cases hc : validCase cm = true
      · rw [generate_memorable_ok N cm d pool o (by omega) (by omega) hc]
        simp only [isOk, true_iff]
        exact ⟨by omega, by omega, hc⟩
      · have hcf : validCase cm = false := by simpa using hc
        have hlen : (sample pool N.toNat o.samplePick).length = N.toNat :=
          sampleGo_length N.toNat pool o.samplePick 0 (by omega)
        obtain ⟨w, rest, hw⟩ : ∃ w rest, sample pool N.toNat o.samplePick = w :: rest := by
          cases hsw : sample pool N.toNat o.samplePick with
          | nil => rw [hsw] at hlen; simp at hlen; omega
          | cons a t => exact ⟨a, t, rfl⟩
        unfold generate_memorable
        rw [if_neg h1, if_neg h2, hw, processWords_invalid cm d o 0 w rest hcf]
        constructor
        · intro h; simp [isOk] at h
        · rintro ⟨-, -, hvc⟩; exact absurd hvc hc

-- ### Claim C2: memorable passwords are cased pool words joined by hyphens

/-- Whether `p` is `w` transformed by the selected case mode; under
mixed, one of the three fixed styles. -/
def caseOkB (caseMode : String) (w p : List Char) : Bool :=
  if caseMode = "lower" then p == lowerStr w
  else if caseMode = "upper" then p == upperStr w
  else if caseMode = "title" then p == titleStr w
  else if caseMode = "mixed" then p == lowerStr w || p == upperStr w || p == titleStr w
  else false

theorem caseOkB_procWord (cm : String) (o : MemOracle) (j : Nat) (w : List Char)
    (hc : validCase cm = true) : caseOkB cm w (procWord cm false o j w) = true := by
  rcases validCase_cases cm hc with h1 | h1 | h1 | h1 <;> subst h1 <;>
    unfold procWord apply_case_fn caseOkB
  · simp
  · simp
  · simp
  · have h3 : o.casePick j % 3 = 0 ∨ o.casePick j % 3 = 1 ∨ o.casePick j % 3 = 2 := by omega
    rcases h3 with h3 | h3 | h3 <;> simp [h3]

/-- C2: for 1 ≤ N ≤ pool size, a valid case mode and digit suffixing
disabled, `generate_memorable` returns exactly N pool words joined by
single hyphens, each word transformed by the selected case mode (one of
the three fixed styles per word under mixed). -/
theorem generate_memorable_words_joined (N : Int) (cm : String) (pool : List (List Char))
    (o : MemOracle) (h1 : 1 ≤ N) (h2 : N ≤ (pool.length : Int)) (hc : validCase cm = true) :
    ∃ ws ps, generate_memorable N cm false pool o = .ok (joinHyphen ps) ∧
      (ws.length : Int) = N ∧ ps.length = ws.length ∧
      (∀ w ∈ ws, w ∈ pool) ∧
      List.Forall₂ (fun w p => caseOkB cm w p = true) ws ps := by
  refine ⟨sample pool N.toNat o.samplePick,
    procList cm false o 0 (sample pool N.toNat o.samplePick),
    generate_memorable_ok N cm false pool o h1 h2 hc, ?_, ?_, ?_, ?_⟩
  · rw [sample_length pool N.toNat o.samplePick (by omega)]; omega
  · exact procList_length cm false o 0 _
  · intro w hw
    exact (sample_subperm pool N.toNat o.samplePick (by omega)).subset hw
  · exact forall₂_procList cm false o _ (fun j w => caseOkB_procWord cm o j w hc) 0 _

/-- The example pool of the specification. -/
def pool3 : List (List Char) := ["cat".toList, "dog".toList, "sun".toList]

/-- C2 witness: the spec example - three words, upper case, no digits. -/
theorem generate_memorable_words_joined_witness :
    ∃ ws ps, generate_memorable 3 "upper" false pool3 zeroOracle = .ok (joinHyphen ps) ∧
      (ws.length : Int) = 3 ∧ ps.length = ws.length ∧
      (∀ w ∈ ws, w ∈ pool3) ∧
      List.Forall₂ (fun w p => caseOkB "upper" w p = true) ws ps :=
  generate_memorable_words_joined 3 "upper" pool3 zeroOracle (by decide) (by decide) (by decide)

-- ### Claim C5: sampling without replacement

/-- C5 counterexample: with the pool listing "cat" twice, the two sampled
words are both "cat" - the positions are distinct but the word repeats
within one password, so the claim fails for pools with duplicates. -/
theorem sample_duplicate_pool_repeats :
    sample catcatPool 2 zeroPick = ["cat".toList, "cat".toList] ∧
    ¬ (sample catcatPool 2 zeroPick).Nodup ∧
    generate_memorable 2 "lower" false catcatPool zeroOracle = .ok "cat-cat".toList := by
  refine ⟨rfl, ?_, rfl⟩
  decide

/-- C5 (amended): the N words used by `generate_memorable` are sampled at
pairwise distinct positions of the pool - the sample is a permutation of
a sublist of the pool - so whenever the pool itself has no duplicate
words, no word repeats within one generated password. -/
theorem sample_without_replacement (pool : List (List Char)) (N : Nat) (pick : Nat → Nat)
    (h : N ≤ pool.length) :
    (sample pool N pick).length = N ∧ List.Subperm (sample pool N pick) pool ∧
    (pool.Nodup → (sample pool N pick).Nodup) := by
  refine ⟨sampleGo_length N pool pick 0 h, sampleGo_subperm N pool pick 0 h, ?_⟩
  intro hnd
  obtain ⟨l, hperm, hsub⟩ := sampleGo_subperm N pool pick 0 h
  exact hperm.nodup (hnd.sublist hsub)

/-- C5 witness: a concrete sample of 2 from a 3-word duplicate-free pool. -/
theorem sample_without_replacement_witness :
    (sample pool3 2 zeroPick).length = 2 ∧ List.Subperm (sample pool3 2 zeroPick) pool3 ∧
    (pool3.Nodup → (sample pool3 2 zeroPick).Nodup) :=
  sample_without_replacement pool3 2 zeroPick (by decide)

-- ### Claim C6: digit suffixing

/-- Splitting a string at every hyphen (the "hyphen-separated segments"
the claim speaks about); splitting the empty string gives one empty
segment. -/
def splitHyphen : List Char → List (List Char)
  | [] => [[]]
  | c :: rest =>
    if c = '-' then [] :: splitHyphen rest
    else (c :: (splitHyphen rest).headD []) :: (splitHyphen rest).tail

/-- The segment ends in exactly one digit: its last character is a digit
and the character before it (when present) is not. -/
def endsInOneDigit (seg : List Char) : Bool :=
  match seg.reverse with
  | [] => false
  | [d] => d.isDigit
  | d :: e :: _ => d.isDigit && !e.isDigit

theorem splitHyphen_cons (c : Char) (rest : List Char) :
    splitHyphen (c :: rest) =
      if c = '-' then [] :: splitHyphen rest
      else (c :: (splitHyphen rest).headD []) :: (splitHyphen rest).tail := rfl

theorem splitHyphen_no_hyphen : ∀ p : List Char, '-' ∉ p → splitHyphen p = [p] := by
  intro p
  induction p with
  | nil => intro _; rfl
  | cons c r ih =>
    intro h
    have hc : c ≠ '-' := fun he => h (he ▸ List.mem_cons_self c r)
    have hr : '-' ∉ r := fun hm => h (List.mem_cons_of_mem c hm)
    unfold splitHyphen
    rw [if_neg hc, ih hr]
    rfl

theorem splitHyphen_append_hyphen : ∀ (p t : List Char), '-' ∉ p →
    splitHyphen (p ++ '-' :: t) = p :: splitHyphen t := by
  intro p t
  induction p with
  | nil => intro _; simp [splitHyphen]
  | cons c r ih =>
    intro h
    have hc : c ≠ '-' := fun he => h (he ▸ List.mem_cons_self c r)
    have hr : '-' ∉ r := fun hm => h (List.mem_cons_of_mem c hm)
    rw [List.cons_append, splitHyphen_cons, if_neg hc, ih hr]
    rfl

theorem splitHyphen_joinHyphen : ∀ ps : List (List Char), ps ≠ [] →
    (∀ p ∈ ps, '-' ∉ p) → splitHyphen (joinHyphen ps) = ps := by
  intro ps
  induction ps with
  | nil => intro h _; exact absurd rfl h
  | cons p rest ih =>
    intro _ hh
    cases rest with
    | nil => exact splitHyphen_no_hyphen p (hh p (List.mem_cons_self p []))
    | cons q rest2 =>
      have hjoin : joinHyphen (p :: q :: rest2) = p ++ '-' :: joinHyphen (q :: rest2) := rfl
      rw [hjoin, splitHyphen_append_hyphen p _ (hh p (List.mem_cons_self p _)),
        ih (by simp) (fun x hx => hh x (List.mem_cons_of_mem p hx))]

-- Character-class facts, checked over the 26 lowercase letters.

theorem lowercase_char_facts : ∀ c ∈ ascii_lowercase,
    c.isDigit = false ∧ c ≠ '-' ∧ c.toLower.isDigit = false ∧ c.toLower ≠ '-' ∧
    c.toUpper.isDigit = false ∧ c.toUpper ≠ '-' := by decide

theorem digitChar_facts (n : Nat) : (digitChar n).isDigit = true ∧ digitChar n ≠ '-' := by
  unfold digitChar
  have h : n % 10 = 0 ∨ n % 10 = 1 ∨ n % 10 = 2 ∨ n % 10 = 3 ∨ n % 10 = 4 ∨ n % 10 = 5 ∨
      n % 10 = 6 ∨ n % 10 = 7 ∨ n % 10 = 8 ∨ n % 10 = 9 := by omega
  rcases h with h | h | h | h | h | h | h | h | h | h <;> rw [h] <;> decide

theorem mem_titleGo : ∀ (b : Bool) (w : List Char) (c : Char), c ∈ titleGo b w →
    ∃ c2 ∈ w, c = c2 ∨ c = c2.toLower ∨ c = c2.toUpper := by
  intro b w
  induction w generalizing b with
  | nil => intro c hc; simp [titleGo] at hc
  | cons c2 rest ih =>
    intro c hc
    unfold titleGo at hc
    by_cases ha : c2.isAlpha
    · rw [if_pos ha] at hc
      rcases List.mem_cons.mp hc with hh | ht
      · refine ⟨c2, List.mem_cons_self c2 rest, ?_⟩
        cases b with
        | true => rw [if_pos rfl] at hh; exact Or.inr (Or.inr hh)
        | false => rw [if_neg (by simp)] at hh; exact Or.inr (Or.inl hh)
      · obtain ⟨c3, hc3, ho⟩ := ih false c ht
        exact ⟨c3, List.mem_cons_of_mem c2 hc3, ho⟩
    · rw [if_neg ha] at hc
      rcases List.mem_cons.mp hc with hh | ht
      · exact ⟨c2, List.mem_cons_self c2 rest, Or.inl hh⟩
      · obtain ⟨c3, hc3, ho⟩ := ih true c ht
        exact ⟨c3, List.mem_cons_of_mem c2 hc3, ho⟩

theorem apply_case_fn_chars (cm : String) (k : Nat) (w : List Char)
    (hw : ∀ c ∈ w, c ∈ ascii_lowercase) (hc : validCase cm = true) :
    ∀ c ∈ apply_case_fn cm k w, c.isDigit = false ∧ c ≠ '-' := by
  have hone : ∀ c2 ∈ w, ∀ c : Char, c = c2 ∨ c = c2.toLower ∨ c = c2.toUpper →
      c.isDigit = false ∧ c ≠ '-' := by
    intro c2 hc2 c ho
    obtain ⟨f1, f2, f3, f4, f5, f6⟩ := lowercase_char_facts c2 (hw c2 hc2)
    rcases ho with rfl | rfl | rfl
    · exact ⟨f1, f2⟩
    · exact ⟨f3, f4⟩
    · exact ⟨f5, f6⟩
  have hlower : ∀ c ∈ lowerStr w, c.isDigit = false ∧ c ≠ '-' := by
    intro c hcm
    obtain ⟨c2, hc2, rfl⟩ := List.mem_map.mp hcm
    exact hone c2 hc2 _ (Or.inr (Or.inl rfl))
  have hupper : ∀ c ∈ upperStr w, c.isDigit = false ∧ c ≠ '-' := by
    intro c hcm
    obtain ⟨c2, hc2, rfl⟩ := List.mem_map.mp hcm
    exact hone c2 hc2 _ (Or.inr (Or.inr rfl))
  have htitle : ∀ c ∈ titleStr w, c.isDigit = false ∧ c ≠ '-' := by
    intro c hcm
    obtain ⟨c2, hc2, ho⟩ := mem_titleGo true w c hcm
    exact hone c2 hc2 c ho
  rcases validCase_cases cm hc with h1 | h1 | h1 | h1 <;> subst h1 <;>
    unfold apply_case_fn
  · simpa using hlower
  · simpa using hupper
  · simpa using htitle
  · rw [if_neg (by decide), if_neg (by decide), if_neg (by decide)]
    have h3 : k % 3 = 0 ∨ k % 3 = 1 ∨ k % 3 = 2 := by omega
    rcases h3 with h3 | h3 | h3 <;> rw [h3]
    · simpa using hlower
    · simpa using hupper
    · simpa using htitle

theorem mem_procList_shape (cm : String) (d : Bool) (o : MemOracle) :
    ∀ (i : Nat) (ws : List (List Char)) (p : List Char), p ∈ procList cm d o i ws →
      ∃ j w, w ∈ ws ∧ p = procWord cm d o j w := by
  intro i ws
  induction ws generalizing i with
  | nil => intro p hp; simp [procList] at hp
  | cons w rest ih =>
    intro p hp
    unfold procList at hp
    rcases List.mem_cons.mp hp with hh | ht
    · exact ⟨i, w, List.mem_cons_self w rest, hh⟩
    · obtain ⟨j, w2, hw2, hp2⟩ := ih (i + 1) p ht
      exact ⟨j, w2, List.mem_cons_of_mem w hw2, hp2⟩

theorem endsInOneDigit_append (q : List Char) (d : Char) (hd : d.isDigit = true)
    (hq : ∀ c ∈ q, c.isDigit = false) : endsInOneDigit (q ++ [d]) = true := by
  unfold endsInOneDigit
  rw [List.reverse_append]
  cases hqr : q.reverse with
  | nil => simp [hd]
  | cons e t =>
    have he : e ∈ q := by
      have h2 : e ∈ q.reverse := by rw [hqr]; exact List.mem_cons_self e t
      simpa using h2
    simp [hd, hq e he]

/-- A pool whose only word contains a hyphen and a digit. -/
def hyphenPool : List (List Char) := ["a-b2".toList]

/-- C6 counterexample: with the pool word "a-b2" the password is
"a-b20"; its hyphen-separated segments are "a" (ending in no digit) and
"b20" (ending in two digits), so the per-segment claim fails even though
one digit was appended to the word. -/
theorem generate_memorable_hyphen_word_segments :
    generate_memorable 1 "lower" true hyphenPool zeroOracle = .ok "a-b20".toList ∧
    (splitHyphen "a-b20".toList).all endsInOneDigit = false := ⟨rfl, by decide⟩

/-- C6 (amended): with digit suffixing enabled each word receives exactly
one decimal digit at its end, and - provided every pool word consists
only of lowercase ASCII letters, as the noun pool does - every
hyphen-separated segment of the result ends in exactly one digit. -/
theorem generate_memorable_digit_suffix (N : Int) (cm : String) (pool : List (List Char))
    (o : MemOracle) (h1 : 1 ≤ N) (h2 : N ≤ (pool.length : Int)) (hc : validCase cm = true)
    (hp : ∀ w ∈ pool, ∀ c ∈ w, c ∈ ascii_lowercase) :
    ∃ ps, generate_memorable N cm true pool o = .ok (joinHyphen ps) ∧
      (ps.length : Int) = N ∧ splitHyphen (joinHyphen ps) = ps ∧
      (∀ p ∈ ps, ∃ q d, p = q ++ [d] ∧ d.isDigit = true ∧ ∀ c ∈ q, c.isDigit = false) ∧
      (splitHyphen (joinHyphen ps)).all endsInOneDigit = true := by
  have hlen : (procList cm true o 0 (sample pool N.toNat o.samplePick)).length = N.toNat := by
    rw [procList_length, sample_length pool N.toNat o.samplePick (by omega)]
  have hElem : ∀ p ∈ procList cm true o 0 (sample pool N.toNat o.samplePick),
      ∃ q d, p = q ++ [d] ∧ d.isDigit = true ∧ d ≠ '-' ∧
        (∀ c ∈ q, c.isDigit = false ∧ c ≠ '-') := by
    intro p hp2
    obtain ⟨j, w, hwws, rfl⟩ := mem_procList_shape cm true o 0 _ p hp2
    have hwpool : w ∈ pool :=
      (sample_subperm pool N.toNat o.samplePick (by omega)).subset hwws
    exact ⟨apply_case_fn cm (o.casePick j) w, digitChar (o.digitPick j), rfl,
      (digitChar_facts _).1, (digitChar_facts _).2,
      apply_case_fn_chars cm _ w (hp w hwpool) hc⟩
  have hne : procList cm true o 0 (sample pool N.toNat o.samplePick) ≠ [] := by
    intro hnil
    rw [hnil] at hlen
    simp at hlen
    omega
  have hHyph : ∀ p ∈ procList cm true o 0 (sample pool N.toNat o.samplePick), '-' ∉ p := by
    intro p hp2 hmem
    obtain ⟨q, d, rfl, -, hdh, hq⟩ := hElem p hp2
    rcases List.mem_append.mp hmem with hmq | hmd
    · exact (hq '-' hmq).2 rfl
    · exact hdh (List.mem_singleton.mp hmd).symm
  have hsplit := splitHyphen_joinHyphen _ hne hHyph
  refine ⟨procList cm true o 0 (sample pool N.toNat o.samplePick),
    generate_memorable_ok N cm true pool o h1 h2 hc, ?_, hsplit, ?_, ?_⟩
  · rw [hlen]; omega
  · intro p hp2
    obtain ⟨q, d, hpd, hd, -, hq⟩ := hElem p hp2
    exact ⟨q, d, hpd, hd, fun c hcq => (hq c hcq).1⟩
  · rw [hsplit, List.all_eq_true]
    intro p hp2
    obtain ⟨q, d, hpd, hd, -, hq⟩ := hElem p hp2
    rw [hpd]
    exact endsInOneDigit_append q d hd (fun c hcq => (hq c hcq).1)

/-- C6 witness: two lowercase words with digit suffixing on. -/
theorem generate_memorable_digit_suffix_witness :
    ∃ ps, generate_memorable 2 "lower" true pool3 zeroOracle = .ok (joinHyphen ps) ∧
      (ps.length : Int) = 2 ∧ splitHyphen (joinHyphen ps) = ps ∧
      (∀ p ∈ ps, ∃ q d, p = q ++ [d] ∧ d.isDigit = true ∧ ∀ c ∈ q, c.isDigit = false) ∧
      (splitHyphen (joinHyphen ps)).all endsInOneDigit = true :=
  generate_memorable_digit_suffix 2 "lower" pool3 zeroOracle (by decide) (by decide)
    (by decide) (by decide)

-- ### Claim C8: logging - embedding of append_log (lines 29-32) and the
-- logging calls at lines 77 and 100

/-- One log line, the text written by line 32 before the newline. -/
def logLine (ts pwd : List Char) : List Char := ts ++ "  |  ".toList ++ pwd

/-- The two append-only log files, as lists of lines. -/
structure LogState where
  memorableLog : List (List Char)
  randomLog : List (List Char)

/-- Embeds `append_log(MEMORABLE_LOG, pwd)`. -/
def append_log_memorable (st : LogState) (ts pwd : List Char) : LogState :=
  { st with memorableLog := st.memorableLog ++ [logLine ts pwd] }

/-- Embeds `append_log(RANDOM_LOG, pwd)`. -/
def append_log_random (st : LogState) (ts pwd : List Char) : LogState :=
  { st with randomLog := st.randomLog ++ [logLine ts pwd] }

/-- Runs `generate_memorable` with its logging side effect (line 77): a
raised error propagates before any logging happens. -/
def generate_memorable_logged (ts : List Char) (st : LogState) (n_words : Int)
    (caseMode : String) (add_digit_each : Bool) (nouns_pool : List (List Char))
    (o : MemOracle) : Except String (List Char) × LogState :=
  match generate_memorable n_words caseMode add_digit_each nouns_pool o with
  | .error e => (.error e, st)
  | .ok pwd => (.ok pwd, append_log_memorable st ts pwd)

/-- Runs `generate_random` with its logging side effect (line 100). -/
def generate_random_logged (ts : List Char) (st : LogState) (L : Int) (p : Bool)
    (f : Option (List Char)) (pick : Nat → Nat) : Except String (List Char) × LogState :=
  match generate_random L p f pick with
  | .error e => (.error e, st)
  | .ok pwd => (.ok pwd, append_log_random st ts pwd)

/-- C8: a successful call of either generator appends exactly one line
`timestamp  |  password` to its own mode-specific log (and touches no
other log), and a failing call leaves both logs unchanged. -/
theorem logged_calls_append_one_line (ts : List Char) (st : LogState) (N : Int) (cm : String)
    (d : Bool) (pool : List (List Char)) (o : MemOracle) (L : Int) (p : Bool)
    (f : Option (List Char)) (pick : Nat → Nat) :
    ((generate_memorable_logged ts st N cm d pool o).2.memorableLog =
        st.memorableLog ++
          (if isOk (generate_memorable_logged ts st N cm d pool o).1 = true
           then [logLine ts (pwdOf (generate_memorable_logged ts st N cm d pool o).1)]
           else []) ∧
      (generate_memorable_logged ts st N cm d pool o).2.randomLog = st.randomLog) ∧
    ((generate_random_logged ts st L p f pick).2.randomLog =
        st.randomLog ++
          (if isOk (generate_random_logged ts st L p f pick).1 = true
           then [logLine ts (pwdOf (generate_random_logged ts st L p f pick).1)]
           else []) ∧
      (generate_random_logged ts st L p f pick).2.memorableLog = st.memorableLog) := by
  constructor
  · unfold generate_memorable_logged
    cases generate_memorable N cm d pool o with
    | error e => simp [isOk, append_log_memorable]
    | ok pwd => simp [isOk, pwdOf, append_log_memorable]
  · unfold generate_random_logged
    cases generate_random L p f pick with
    | error e => simp [isOk, append_log_random]
    | ok pwd => simp [isOk, pwdOf, append_log_random]

-- ### Claim C10: load_nouns - embedding of lines 35-40

/-- Python whitespace for a no-argument `strip()`: codes 9-13 and 32. -/
def isPySpace (c : Char) : Bool := c.toNat = 32 || (9 ≤ c.toNat && c.toNat ≤ 13)

/-- Embeds `line.strip()`: leading and trailing whitespace removed. -/
def pyStrip (s : List Char) : List Char :=
  ((s.dropWhile isPySpace).reverse.dropWhile isPySpace).reverse

/-- Python list slicing `words[:m]` (line 39); a negative `m` counts
from the end. -/
def pySlice (m : Int) (l : List (List Char)) : List (List Char) :=
  if m < 0 then l.take ((l.length : Int) + m).toNat else l.take m.toNat

/-- The embedding of `load_nouns` (lines 35-40): strip each line of the
word file, drop the blank ones, and truncate when a limit is given. -/
def load_nouns (lines : List (List Char)) (limit : Option Int) : List (List Char) :=
  match limit with
  | none => (lines.map pyStrip).filter (fun w => !w.isEmpty)
  | some m => pySlice m ((lines.map pyStrip).filter (fun w => !w.isEmpty))

/-- The list does not start with a character matched by `p`. -/
def noLead (p : Char → Bool) : List Char → Prop
  | [] => True
  | c :: _ => p c = false

theorem noLead_dropWhile (p : Char → Bool) : ∀ l : List Char, noLead p (l.dropWhile p) := by
  intro l
  induction l with
  | nil => trivial
  | cons c r ih =>
    by_cases hc : p c = true
    · rw [List.dropWhile_cons, if_pos hc]
      exact ih
    · rw [List.dropWhile_cons, if_neg hc]
      show p c = false
      simpa using hc

theorem dropWhile_of_noLead (p : Char → Bool) : ∀ l : List Char, noLead p l →
    l.dropWhile p = l := by
  intro l h
  cases l with
  | nil => rfl
  | cons c r =>
    have hc : p c = false := h
    rw [List.dropWhile_cons, if_neg (by simp [hc])]

theorem dropWhile_suffix_exists (p : Char → Bool) : ∀ l : List Char,
    ∃ t, t ++ l.dropWhile p = l := by
  intro l
  induction l with
  | nil => exact ⟨[], rfl⟩
  | cons c r ih =>
    by_cases hc : p c = true
    · obtain ⟨t, ht⟩ := ih
      refine ⟨c :: t, ?_⟩
      rw [List.dropWhile_cons, if_pos hc, List.cons_append, ht]
    · refine ⟨[], ?_⟩
      rw [List.dropWhile_cons, if_neg hc, List.nil_append]

theorem noLead_rightTrim (p : Char → Bool) (l : List Char) (h : noLead p l) :
    noLead p ((l.reverse.dropWhile p).reverse) := by
  obtain ⟨t, ht⟩ := dropWhile_suffix_exists p l.reverse
  have hrev : (l.reverse.dropWhile p).reverse ++ t.reverse = l := by
    have h2 := congrArg List.reverse ht
    simpa [List.reverse_append] using h2
  cases hr : (l.reverse.dropWhile p).reverse with
  | nil => trivial
  | cons c rest =>
    rw [hr, List.cons_append] at hrev
    cases l with
    | nil => cases hrev
    | cons c2 r2 =>
      have hc : c = c2 := (List.cons.inj hrev).1
      show p c = false
      rw [hc]
      exact h

theorem pyStrip_idem (s : List Char) : pyStrip (pyStrip s) = pyStrip s := by
  have h1 : noLead isPySpace (s.dropWhile isPySpace) := noLead_dropWhile isPySpace s
  have h2 : noLead isPySpace (pyStrip s) := noLead_rightTrim isPySpace _ h1
  have h3 : (pyStrip s).dropWhile isPySpace = pyStrip s := dropWhile_of_noLead isPySpace _ h2
  have h4 : (pyStrip s).reverse = (s.dropWhile isPySpace).reverse.dropWhile isPySpace := by
    unfold pyStrip
    rw [List.reverse_reverse]
  have h5 : (pyStrip s).reverse.dropWhile isPySpace = (pyStrip s).reverse := by
    rw [h4]
    exact dropWhile_of_noLead isPySpace _ (noLead_dropWhile isPySpace _)
  show ((( pyStrip s).dropWhile isPySpace).reverse.dropWhile isPySpace).reverse = pyStrip s
  rw [h3, h5, List.reverse_reverse]

/-- A small concrete word file: a padded word, a blank line, a word. -/
def linesAB : List (List Char) := [" a ".toList, "".toList, "b".toList]

/-- C10 counterexample: Python accepts a negative limit, which slices
from the end; `load_nouns` with limit -1 on a 2-word file returns 1 word,
and 1 ≤ -1 fails, so "at most m elements" does not hold for every m. -/
theorem load_nouns_negative_limit :
    load_nouns linesAB (some (-1)) = ["a".toList] ∧
    ¬ (((load_nouns linesAB (some (-1))).length : Int) ≤ -1) := ⟨rfl, by decide⟩

/-- C10 (amended): every returned word is non-empty and equal to its own
stripped form; a limited call returns a prefix of the unlimited result,
and for a non-negative limit at most `m` words (a negative limit still
yields a prefix, but may keep more than `m` elements). -/
theorem load_nouns_spec (lines : List (List Char)) (m : Int) :
    (∀ w ∈ load_nouns lines none, w ≠ [] ∧ pyStrip w = w) ∧
    (∀ w ∈ load_nouns lines (some m), w ≠ [] ∧ pyStrip w = w) ∧
    (∃ t, load_nouns lines (some m) ++ t = load_nouns lines none) ∧
    (m < 0 ∨ ((load_nouns lines (some m)).length : Int) ≤ m) := by
  have hbase : ∀ w ∈ load_nouns lines none, w ≠ [] ∧ pyStrip w = w := by
    intro w hw
    unfold load_nouns at hw
    obtain ⟨hmem, hne⟩ := List.mem_filter.mp hw
    obtain ⟨l, -, rfl⟩ := List.mem_map.mp hmem
    refine ⟨?_, pyStrip_idem l⟩
    simpa [List.isEmpty_iff] using hne
  obtain ⟨n, hn⟩ : ∃ n, load_nouns lines (some m) = (load_nouns lines none).take n := by
    simp only [load_nouns, pySlice]
    by_cases hm : m < 0
    · exact ⟨_, by rw [if_pos hm]⟩
    · exact ⟨m.toNat, by rw [if_neg hm]⟩
  refine ⟨hbase, ?_, ?_, ?_⟩
  · intro w hw
    apply hbase
    rw [hn] at hw
    rw [← List.take_append_drop n (load_nouns lines none)]
    exact List.mem_append.mpr (Or.inl hw)
  · refine ⟨(load_nouns lines none).drop n, ?_⟩
    rw [hn]
    exact List.take_append_drop n _
  · by_cases hm : m < 0
    · exact Or.inl hm
    · right
      simp only [load_nouns, pySlice]
      rw [if_neg hm]
      have hle := List.length_take_le m.toNat ((lines.map pyStrip).filter (fun w => !w.isEmpty))
      omega

/-- C10 witness: the amended theorem at a concrete file and limit 1. -/
theorem load_nouns_spec_witness :
    (∀ w ∈ load_nouns linesAB none, w ≠ [] ∧ pyStrip w = w) ∧
    (∀ w ∈ load_nouns linesAB (some 1), w ≠ [] ∧ pyStrip w = w) ∧
    (∃ t, load_nouns linesAB (some 1) ++ t = load_nouns linesAB none) ∧
    ((1 : Int) < 0 ∨ ((load_nouns linesAB (some 1)).length : Int) ≤ 1) :=
  load_nouns_spec linesAB 1

end PwGen
